import Mathlib

/-!
Shallow embedding of the live-audio pipeline of the ai-speaking-trainer
repository: the PCM codec helpers in `src/services/audioUtils.ts`
(`createPcmBlob`, `decodeAudioData`) and the session logic in
`src/components/LiveSession.tsx` (playback scheduling, transcript merging,
mute handling, teardown).  Audio samples are modelled as rationals; machine
integers as `ℤ`/`ℕ` with explicit modular reduction where the JavaScript
semantics wraps.
-/

/-- JavaScript `ToInt16`: truncate-free modular reduction of an integer into
the signed 16-bit range `[-32768, 32767]`.  This is the conversion the runtime
applies when a number is stored into an `Int16Array` slot
(`int16[i] = data[i] * 32768` in `createPcmBlob`) and when the bytes of a
buffer are viewed through `new Int16Array(data.buffer)`. -/
def toInt16 (n : ℤ) : ℤ :=
  if 32768 ≤ n % 65536 then n % 65536 - 65536 else n % 65536

/-- Truncation toward zero of a rational number, as JavaScript
`ToIntegerOrInfinity` performs on a finite number before the modular
reduction of `ToInt16`. -/
def truncQ (q : ℚ) : ℤ := Int.tdiv q.num q.den

/-- One sample through the loop of `createPcmBlob`
(`src/services/audioUtils.ts` lines 41-51): `int16[i] = data[i] * 32768`,
i.e. scale by 32768, truncate toward zero, and wrap into the signed 16-bit
range. -/
def encodeSample (x : ℚ) : ℤ := toInt16 (truncQ (x * 32768))

/-- Low byte of the little-endian two's-complement 16-bit representation of a
sample, as laid out in the `Int16Array`'s backing `ArrayBuffer`. -/
def int16Lo (v : ℤ) : ℕ := (v % 65536).toNat % 256

/-- High byte of the little-endian two's-complement 16-bit representation. -/
def int16Hi (v : ℤ) : ℕ := (v % 65536).toNat / 256

/-- `createPcmBlob` observed at the byte level: each sample is converted to a
16-bit signed integer and the `Int16Array`'s buffer is read back as bytes
(little-endian).  The source then base64-encodes exactly these bytes into the
blob's `data` field; the claims under verification are stated at the byte
level, so the base64 transport layer is not modelled. -/
def createPcmBlobBytes (data : List ℚ) : List ℕ :=
  (data.map fun x => [int16Lo (encodeSample x), int16Hi (encodeSample x)]).flatten

/-- `new Int16Array(data.buffer)`: reinterpret consecutive little-endian byte
pairs as 16-bit signed integers.  (A trailing odd byte cannot occur where this
is used: the constructor throws a `RangeError` first, see `decodeAudioData`.) -/
def bytesToInt16s : List ℕ → List ℤ
  | b0 :: b1 :: rest => toInt16 (b0 + 256 * b1) :: bytesToInt16s rest
  | _ => []

/-- Errors that `decodeAudioData` can actually raise.  The codebase defines no
`MalformedPacket` error anywhere. -/
inductive DecodeError
  /-- `new Int16Array(data.buffer)` throws a `RangeError` when the byte length
  of the buffer is not a multiple of 2. -/
  | rangeError
  /-- `ctx.createBuffer(numChannels, frameCount, sampleRate)` throws a
  `NotSupportedError` when an argument is outside its nominal range: the
  channel count must lie in `[1, 32]` and the (truncated) frame count must be
  at least 1. -/
  | notSupported
deriving DecidableEq

/-- `decodeAudioData(data, ctx, sampleRate, numChannels)`
(`src/services/audioUtils.ts` lines 22-39).  The byte buffer is viewed as an
`Int16Array` (throws `RangeError` on odd byte length); `frameCount` is
`dataInt16.length / numChannels`, which WebIDL truncates to an integer when
`createBuffer` receives it (`createBuffer` throws `NotSupportedError` on a zero
frame count or a channel count outside `[1, 32]`); then channel `c`, frame `i`
is `dataInt16[i * numChannels + c] / 32768`.  When the division is fractional,
the JS copy loop runs one extra iteration whose out-of-bounds write into the
`Float32Array` is discarded, so the resulting buffer holds exactly the
truncated frame count per channel.  The `ctx` and `sampleRate` arguments only
parametrise buffer creation and are not needed for the decoded samples. -/
def decodeAudioData (data : List ℕ) (numChannels : ℕ) :
    Except DecodeError (List (List ℚ)) :=
  if data.length % 2 ≠ 0 then .error .rangeError else
  let dataInt16 := bytesToInt16s data
  let frameCount := dataInt16.length / numChannels
  if numChannels < 1 ∨ 32 < numChannels ∨ frameCount < 1 then .error .notSupported else
  .ok <| (List.range numChannels).map fun channel =>
    (List.range frameCount).map fun i =>
      ((dataInt16.getD (i * numChannels + channel) 0 : ℤ) : ℚ) / 32768

/-- The claim's spec-side description of the wire format: the 16-bit
little-endian signed integer read from bytes `k` and `k+1` of the buffer. -/
def readInt16LE (data : List ℕ) (k : ℕ) : ℤ :=
  toInt16 (data.getD k 0 + 256 * data.getD (k + 1) 0)

-- ### Basic lemmas about the 16-bit conversions

theorem toInt16_range (n : ℤ) : -32768 ≤ toInt16 n ∧ toInt16 n ≤ 32767 := by
  have h0 : 0 ≤ n % 65536 := Int.emod_nonneg n (by norm_num)
  have h1 : n % 65536 < 65536 := Int.emod_lt_of_pos n (by norm_num)
  unfold toInt16
  split <;> omega

theorem toInt16_eq_self (n : ℤ) (hlo : -32768 ≤ n) (hhi : n ≤ 32767) :
    toInt16 n = n := by
  unfold toInt16
  rcases le_or_lt 0 n with h | h
  · rw [Int.emod_eq_of_lt h (by omega)]
    split <;> omega
  · have he : n % 65536 = n + 65536 := by
      have : (n + 65536) % 65536 = n + 65536 := Int.emod_eq_of_lt (by omega) (by omega)
      omega
    rw [he]
    split <;> omega

theorem toInt16_emod (n : ℤ) : toInt16 n % 65536 = n % 65536 := by
  unfold toInt16
  split <;> omega

theorem toInt16_emod_eq (n : ℤ) : toInt16 (n % 65536) = toInt16 n := by
  unfold toInt16
  rw [Int.emod_emod_of_dvd n dvd_rfl]

/-- Round trip through the byte serialisation: splitting a stored 16-bit value
into its two little-endian bytes and reading them back recovers the value. -/
theorem readBytes_toInt16 (v : ℤ) (hlo : -32768 ≤ v) (hhi : v ≤ 32767) :
    toInt16 ((int16Lo v : ℤ) + 256 * (int16Hi v : ℤ)) = v := by
  have h0 : 0 ≤ v % 65536 := Int.emod_nonneg v (by norm_num)
  have hnat : int16Lo v + 256 * int16Hi v = (v % 65536).toNat := by
    unfold int16Lo int16Hi
    exact Nat.mod_add_div _ _
  have hsum : (int16Lo v : ℤ) + 256 * (int16Hi v : ℤ) = v % 65536 := by
    have h4 := congrArg (fun t : ℕ => (t : ℤ)) hnat
    push_cast at h4
    rw [Int.toNat_of_nonneg h0] at h4
    linarith
  rw [hsum, toInt16_emod_eq, toInt16_eq_self v hlo hhi]

theorem encodeSample_range (x : ℚ) :
    -32768 ≤ encodeSample x ∧ encodeSample x ≤ 32767 :=
  toInt16_range _

-- ### Truncation toward zero

theorem truncQ_eq_floor (q : ℚ) (h : 0 ≤ q) : truncQ q = ⌊q⌋ := by
  rw [truncQ, Rat.floor_def,
    Int.tdiv_eq_ediv (Rat.num_nonneg.mpr h) (by positivity)]

theorem truncQ_eq_ceil (q : ℚ) (h : q ≤ 0) : truncQ q = ⌈q⌉ := by
  have hq : truncQ q = -truncQ (-q) := by
    rw [truncQ, truncQ]
    rw [show (-q).num = -q.num from Rat.neg_num q, show (-q).den = q.den from Rat.neg_den q]
    rw [Int.neg_tdiv]
    ring
  rw [hq, truncQ_eq_floor (-q) (by linarith), Int.floor_neg, neg_neg]

theorem truncQ_intCast (n : ℤ) : truncQ (n : ℚ) = n := by
  rw [truncQ, Rat.num_intCast, Rat.den_intCast]
  simp

/-- Truncation toward zero is within one of its argument. -/
theorem truncQ_near (q : ℚ) : |(truncQ q : ℚ) - q| < 1 := by
  rcases le_or_lt 0 q with h | h
  · rw [truncQ_eq_floor q h, abs_sub_lt_iff]
    constructor
    · have := Int.floor_le q
      linarith
    · have := Int.sub_one_lt_floor q
      linarith
  · rw [truncQ_eq_ceil q h.le, abs_sub_lt_iff]
    constructor
    · have := Int.ceil_lt_add_one q
      linarith
    · have := Int.le_ceil q
      linarith

-- ### Structural lemmas about the byte serialisation

theorem createPcmBlobBytes_cons (x : ℚ) (rest : List ℚ) :
    createPcmBlobBytes (x :: rest)
      = int16Lo (encodeSample x) :: int16Hi (encodeSample x) :: createPcmBlobBytes rest := rfl

theorem createPcmBlobBytes_length :
    ∀ data : List ℚ, (createPcmBlobBytes data).length = 2 * data.length
  | [] => rfl
  | x :: rest => by
    rw [createPcmBlobBytes_cons]
    simp only [List.length_cons, createPcmBlobBytes_length rest]
    omega

/-- Reading the serialised samples back through the `Int16Array` view recovers
exactly the encoded 16-bit values. -/
theorem bytesToInt16s_encode :
    ∀ frame : List ℚ, bytesToInt16s (createPcmBlobBytes frame) = frame.map encodeSample
  | [] => rfl
  | x :: rest => by
    rw [createPcmBlobBytes_cons]
    have h := encodeSample_range x
    simp only [bytesToInt16s, List.map_cons]
    rw [readBytes_toInt16 _ h.1 h.2, bytesToInt16s_encode rest]

theorem bytesToInt16s_length :
    ∀ data : List ℕ, (bytesToInt16s data).length = data.length / 2
  | [] => rfl
  | [_] => by simp [bytesToInt16s]
  | _ :: _ :: rest => by
    simp only [bytesToInt16s, List.length_cons, bytesToInt16s_length rest]
    omega

theorem bytesToInt16s_getD :
    ∀ (data : List ℕ) (j : ℕ), 2 * j + 1 < data.length →
      (bytesToInt16s data).getD j 0 = readInt16LE data (2 * j)
  | [], j, h => by simp at h
  | [_], j, h => by
    simp only [List.length_cons, List.length_nil] at h
    omega
  | b0 :: b1 :: rest, 0, _ => by
    simp [bytesToInt16s, readInt16LE]
  | b0 :: b1 :: rest, j + 1, h => by
    have hlt : 2 * j + 1 < rest.length := by
      simp only [List.length_cons] at h
      omega
    have hr := bytesToInt16s_getD rest j hlt
    have hidx : 2 * (j + 1) = 2 * j + 1 + 1 := by ring
    simp only [bytesToInt16s, List.getD_cons_succ, readInt16LE, hidx]
    simpa [readInt16LE] using hr

-- ### Quantisation bound and concrete encode values

/-- For samples in `[-1, 1)` the encoded value is within one quantisation step
of the scaled sample: the wrap of `toInt16` is the identity there. -/
theorem encodeSample_near (x : ℚ) (h1 : -1 ≤ x) (h2 : x < 1) :
    |((encodeSample x : ℤ) : ℚ) / 32768 - x| ≤ 1 / 32768 := by
  have hy1 : -32768 ≤ x * 32768 := by nlinarith
  have hy2 : x * 32768 < 32768 := by nlinarith
  have htr : -32768 ≤ truncQ (x * 32768) ∧ truncQ (x * 32768) ≤ 32767 := by
    rcases le_or_lt 0 (x * 32768) with hc | hc
    · rw [truncQ_eq_floor _ hc]
      refine ⟨le_trans (by norm_num) (Int.floor_nonneg.mpr hc), ?_⟩
      have hlt : (⌊x * 32768⌋ : ℚ) < 32768 := lt_of_le_of_lt (Int.floor_le _) hy2
      have : ⌊x * 32768⌋ < (32768 : ℤ) := by exact_mod_cast hlt
      omega
    · rw [truncQ_eq_ceil _ hc.le]
      constructor
      · have hle : ((-32768 : ℤ) : ℚ) ≤ (⌈x * 32768⌉ : ℚ) :=
          le_trans (by exact_mod_cast hy1) (Int.le_ceil _)
        exact_mod_cast hle
      · have hle0 : ⌈x * 32768⌉ ≤ 0 := Int.ceil_le.mpr (by exact_mod_cast hc.le)
        omega
  have henc : encodeSample x = truncQ (x * 32768) := by
    rw [encodeSample, toInt16_eq_self _ htr.1 htr.2]
  have hnear := truncQ_near (x * 32768)
  rw [henc]
  have heq : ((truncQ (x * 32768) : ℤ) : ℚ) / 32768 - x
      = (((truncQ (x * 32768) : ℤ) : ℚ) - x * 32768) / 32768 := by ring
  rw [heq, abs_div, abs_of_pos (by norm_num : (0 : ℚ) < 32768)]
  exact (div_le_div_iff_of_pos_right (by norm_num : (0 : ℚ) < 32768)).mpr hnear.le

/-- Decoded samples sit in `[-1, 32767/32768]`. -/
theorem sample_bounds (v : ℤ) (h1 : -32768 ≤ v) (h2 : v ≤ 32767) :
    -1 ≤ ((v : ℤ) : ℚ) / 32768 ∧ ((v : ℤ) : ℚ) / 32768 ≤ 32767 / 32768 := by
  constructor
  · rw [show (-1 : ℚ) = -32768 / 32768 by norm_num]
    apply div_le_div_of_nonneg_right ?_ (by norm_num)
    exact_mod_cast h1
  · apply div_le_div_of_nonneg_right ?_ (by norm_num)
    exact_mod_cast h2

theorem truncQ_eq_of_eq_intCast {q : ℚ} {n : ℤ} (h : q = (n : ℚ)) : truncQ q = n := by
  rw [h, truncQ_intCast]

/-- A full-scale sample of exactly 1.0 wraps to the most negative 16-bit
value: `1 * 32768 = 32768`, which `ToInt16` reduces to `-32768`. -/
theorem encodeSample_one : encodeSample 1 = -32768 := by
  rw [encodeSample,
    truncQ_eq_of_eq_intCast (by push_cast; ring : (1 : ℚ) * 32768 = ((32768 : ℤ) : ℚ))]
  decide

/-- Indexing through `List.range` over a list's length is just `List.map`. -/
theorem range_map_getD {α β : Type} (l : List α) (d : α) (g : α → β) :
    (List.range l.length).map (fun i => g (l.getD i d)) = l.map g := by
  apply List.ext_getElem
  · simp
  · intro i hi1 hi2
    simp only [List.getElem_map, List.getElem_range]
    rw [List.getD_eq_getElem _ _ (by simpa using hi2)]

/-- Decoding the bytes produced by `createPcmBlob` with one channel yields one
channel whose samples are the encoded 16-bit values rescaled by 32768. -/
theorem decode_encode (frame : List ℚ) (hne : frame ≠ []) :
    decodeAudioData (createPcmBlobBytes frame) 1
      = .ok [frame.map fun x => ((encodeSample x : ℤ) : ℚ) / 32768] := by
  have hposn : 0 < frame.length := List.length_pos.mpr hne
  have hlen2 : (createPcmBlobBytes frame).length % 2 = 0 := by
    rw [createPcmBlobBytes_length]
    omega
  simp only [decodeAudioData, bytesToInt16s_encode, List.length_map, Nat.div_one]
  rw [if_neg (by omega), if_neg (by push_neg; omega)]
  rw [show List.range 1 = [0] by decide, List.map_cons, List.map_nil]
  congr 1
  simp only [mul_one, add_zero]
  rw [show List.range frame.length = List.range (List.map encodeSample frame).length by
    simp]
  rw [range_map_getD (frame.map encodeSample) 0 (fun v => ((v : ℤ) : ℚ) / 32768),
    List.map_map]
  rfl

-- ### Claim C1 — PCM codec round trip

/-- C1 (amended): for every nonempty audio frame whose samples lie in the
half-open interval `[-1, 1)`, decoding the bytes produced by `createPcmBlob`
with `channelCount = 1` yields a single channel of the same length in which
every sample differs from the original by at most one quantisation step,
`1/32768`.  (The claim's closed interval `[-1, 1]` fails at `1.0`, which wraps
to `-1.0`, and the empty frame fails to decode at all; see the
counterexample.) -/
theorem C1_pcm_roundtrip (frame : List ℚ) (hne : frame ≠ [])
    (hin : ∀ x ∈ frame, -1 ≤ x ∧ x < 1) :
    ∃ out : List ℚ, decodeAudioData (createPcmBlobBytes frame) 1 = .ok [out] ∧
      out.length = frame.length ∧
      ∀ i : ℕ, (hi : i < out.length) → (hj : i < frame.length) →
        |out.get ⟨i, hi⟩ - frame.get ⟨i, hj⟩| ≤ 1 / 32768 := by
  refine ⟨frame.map fun x => ((encodeSample x : ℤ) : ℚ) / 32768,
    decode_encode frame hne, by simp, ?_⟩
  intro i hi hj
  have hmem : frame.get ⟨i, hj⟩ ∈ frame := List.get_mem frame i hj
  have hx := hin _ hmem
  have hget : (frame.map fun x => ((encodeSample x : ℤ) : ℚ) / 32768).get ⟨i, hi⟩
      = ((encodeSample (frame.get ⟨i, hj⟩) : ℤ) : ℚ) / 32768 := by
    simp [List.get_eq_getElem, List.getElem_map]
  rw [hget]
  exact encodeSample_near _ hx.1 hx.2

/-- Witness for C1 at the concrete frame `[0]`. -/
theorem C1_pcm_roundtrip_witness :
    (([(0 : ℚ)] : List ℚ) ≠ [] ∧ ∀ x ∈ [(0 : ℚ)], -1 ≤ x ∧ x < 1) ∧
    (∃ out : List ℚ, decodeAudioData (createPcmBlobBytes [(0 : ℚ)]) 1 = .ok [out] ∧
      out.length = ([(0 : ℚ)] : List ℚ).length ∧
      ∀ i : ℕ, (hi : i < out.length) → (hj : i < ([(0 : ℚ)] : List ℚ).length) →
        |out.get ⟨i, hi⟩ - ([(0 : ℚ)] : List ℚ).get ⟨i, hj⟩| ≤ 1 / 32768) :=
  ⟨⟨by decide, by decide⟩, C1_pcm_roundtrip [(0 : ℚ)] (by decide) (by decide)⟩

/-- C1 counterexample, refuting the claim as stated (closed interval, all
frames): the frame `[1.0]` has all samples in `[-1, 1]` yet decodes to
`[-1.0]`, an error of `2`, far above one quantisation step; and the empty
frame (vacuously within range) does not decode successfully at all, because
`ctx.createBuffer` rejects a zero frame count. -/
theorem C1_pcm_roundtrip_cex :
    (∀ x ∈ [(1 : ℚ)], -1 ≤ x ∧ x ≤ 1) ∧
    decodeAudioData (createPcmBlobBytes [(1 : ℚ)]) 1 = .ok [[-1]] ∧
    ¬ |(-1 : ℚ) - 1| ≤ 1 / 32768 ∧
    ∀ out : List (List ℚ), decodeAudioData (createPcmBlobBytes ([] : List ℚ)) 1 ≠ .ok out := by
  refine ⟨by decide, ?_, by norm_num, ?_⟩
  · have hdec := decode_encode [(1 : ℚ)] (by decide)
    simp only [List.map_cons, List.map_nil, encodeSample_one] at hdec
    rw [hdec]
    norm_num
  · intro out h
    have hred : decodeAudioData (createPcmBlobBytes ([] : List ℚ)) 1
        = .error .notSupported := rfl
    rw [hred] at h
    exact Except.noConfusion h

-- ### Claim C4 — decode error behaviour

/-- C4 (amended): `decodeAudioData` never raises a `MalformedPacket` error —
no such error exists in the codebase.  For channel counts in `[1, 32]`: a byte
buffer of odd length fails with the `RangeError` thrown by the `Int16Array`
view; an even-length buffer never fails at the view, and decoding succeeds
exactly when the truncated frame count `(len / 2) / channelCount` is at least
1 — in particular, even lengths that are not multiples of
`channelCount * 2` still decode (dropping trailing samples), and a zero frame
count fails with `createBuffer`'s `NotSupportedError`. -/
theorem C4_decode_error_behavior (data : List ℕ) (ch : ℕ)
    (hch1 : 1 ≤ ch) (hch32 : ch ≤ 32) :
    (data.length % 2 ≠ 0 → decodeAudioData data ch = .error .rangeError) ∧
    (data.length % 2 = 0 → data.length / 2 / ch = 0 →
      decodeAudioData data ch = .error .notSupported) ∧
    (data.length % 2 = 0 → 1 ≤ data.length / 2 / ch →
      ∃ out, decodeAudioData data ch = .ok out) := by
  refine ⟨fun hodd => ?_, fun heven hfc => ?_, fun heven hfc => ?_⟩
  · simp only [decodeAudioData]
    rw [if_pos hodd]
  · simp only [decodeAudioData, bytesToInt16s_length]
    rw [if_neg (by omega), if_pos (by omega)]
  · simp only [decodeAudioData, bytesToInt16s_length]
    rw [if_neg (by omega), if_neg (by push_neg; omega)]
    exact ⟨_, rfl⟩

/-- Witness for C4 at the concrete buffer `[0, 0]` with one channel. -/
theorem C4_decode_error_behavior_witness :
    ((1 : ℕ) ≤ 1 ∧ (1 : ℕ) ≤ 32) ∧
    (([0, 0] : List ℕ).length % 2 ≠ 0 → decodeAudioData [0, 0] 1 = .error .rangeError) ∧
    (([0, 0] : List ℕ).length % 2 = 0 → ([0, 0] : List ℕ).length / 2 / 1 = 0 →
      decodeAudioData [0, 0] 1 = .error .notSupported) ∧
    (([0, 0] : List ℕ).length % 2 = 0 → 1 ≤ ([0, 0] : List ℕ).length / 2 / 1 →
      ∃ out, decodeAudioData [0, 0] 1 = .ok out) :=
  ⟨⟨by decide, by decide⟩, C4_decode_error_behavior [0, 0] 1 (by decide) (by decide)⟩

/-- C4 counterexample, refuting the claim as stated: the empty byte buffer has
length `0`, a multiple of `channelCount * 2 = 2`, so the claim asserts that
decoding succeeds — but `decodeAudioData` fails (`createBuffer` rejects the
zero frame count).  No input can fail "with `MalformedPacket`" since the code
defines no such error. -/
theorem C4_decode_error_behavior_cex :
    List.length ([] : List ℕ) % (1 * 2) = 0 ∧
    ∀ out : List (List ℚ), decodeAudioData ([] : List ℕ) 1 ≠ .ok out := by
  refine ⟨rfl, fun out h => ?_⟩
  have hred : decodeAudioData ([] : List ℕ) 1 = .error .notSupported := rfl
  rw [hred] at h
  exact Except.noConfusion h

-- ### Claim C8 — decode semantics

/-- Indexing a mapped range with `getD` inside bounds evaluates the map. -/
theorem getD_map_range {β : Type} (n : ℕ) (f : ℕ → β) (c : ℕ) (d : β) (h : c < n) :
    ((List.range n).map f).getD c d = f c := by
  rw [List.getD_eq_getElem _ _ (by simpa using h)]
  simp

/-- When the byte length is exactly `2 * n * ch`, decoding succeeds and returns
the de-interleaved, rescaled 16-bit samples. -/
theorem decode_ok_shape (data : List ℕ) (ch n : ℕ) (hch1 : 1 ≤ ch) (hch32 : ch ≤ 32)
    (hn : 1 ≤ n) (hlen : data.length = 2 * n * ch) :
    decodeAudioData data ch = .ok ((List.range ch).map fun channel =>
      (List.range n).map fun i =>
        (((bytesToInt16s data).getD (i * ch + channel) 0 : ℤ) : ℚ) / 32768) := by
  have heven : data.length % 2 = 0 := by
    obtain ⟨m, hm⟩ : ∃ m, data.length = 2 * m := ⟨n * ch, by rw [hlen, mul_assoc]⟩
    omega
  have hfc : (bytesToInt16s data).length / ch = n := by
    rw [bytesToInt16s_length, hlen, mul_assoc,
      Nat.mul_div_cancel_left (n * ch) (by norm_num)]
    exact Nat.mul_div_cancel n (by omega)
  simp only [decodeAudioData, hfc]
  rw [if_neg (by omega), if_neg (by push_neg; omega)]

/-- C8 (amended): for every byte buffer of length `2 * n * channelCount` with
`n ≥ 1` and `channelCount` in `[1, 32]`, decode produces `channelCount`
channels of `n` samples each, where channel `c`, sample `i` is the 16-bit
little-endian signed integer read from bytes `2*(i*channelCount+c)` and
`2*(i*channelCount+c)+1`, divided by `32768`; every decoded sample lies in
`[-1, 32767/32768]`.  (The claim as stated also covers `n = 0` and arbitrary
channel counts, where decoding fails instead; see the counterexample.) -/
theorem C8_decode_semantics (data : List ℕ) (ch n : ℕ)
    (hch1 : 1 ≤ ch) (hch32 : ch ≤ 32) (hn : 1 ≤ n)
    (hlen : data.length = 2 * n * ch) :
    ∃ chans : List (List ℚ), decodeAudioData data ch = .ok chans ∧
      chans.length = ch ∧
      (∀ c, c < ch → (chans.getD c []).length = n) ∧
      ∀ c i, c < ch → i < n →
        (chans.getD c []).getD i 0 = ((readInt16LE data (2 * (i * ch + c)) : ℤ) : ℚ) / 32768 ∧
        -1 ≤ (chans.getD c []).getD i 0 ∧
        (chans.getD c []).getD i 0 ≤ 32767 / 32768 := by
  refine ⟨_, decode_ok_shape data ch n hch1 hch32 hn hlen, by simp, ?_, ?_⟩
  · intro c hc
    rw [getD_map_range ch _ c _ hc]
    simp
  · intro c i hc hi
    rw [getD_map_range ch _ c _ hc, getD_map_range n _ i _ hi]
    have hmul : i * ch + ch ≤ n * ch := by
      have hstep := Nat.mul_le_mul_right ch (Nat.succ_le_of_lt hi)
      simpa [Nat.succ_mul] using hstep
    have hidx : 2 * (i * ch + c) + 1 < data.length := by
      rw [hlen, mul_assoc]
      linarith
    have hgd := bytesToInt16s_getD data (i * ch + c) hidx
    have hrange : -32768 ≤ readInt16LE data (2 * (i * ch + c)) ∧
        readInt16LE data (2 * (i * ch + c)) ≤ 32767 := toInt16_range _
    exact ⟨by rw [hgd], by rw [hgd]; exact (sample_bounds _ hrange.1 hrange.2).1,
      by rw [hgd]; exact (sample_bounds _ hrange.1 hrange.2).2⟩

/-- Witness for C8 at the concrete buffer `[0, 128]`, one channel, one
sample. -/
theorem C8_decode_semantics_witness :
    ((1 : ℕ) ≤ 1 ∧ (1 : ℕ) ≤ 32 ∧ (1 : ℕ) ≤ 1 ∧ ([0, 128] : List ℕ).length = 2 * 1 * 1) ∧
    (∃ chans : List (List ℚ), decodeAudioData [0, 128] 1 = .ok chans ∧
      chans.length = 1 ∧
      (∀ c, c < 1 → (chans.getD c []).length = 1) ∧
      ∀ c i, c < 1 → i < 1 →
        (chans.getD c []).getD i 0 = ((readInt16LE [0, 128] (2 * (i * 1 + c)) : ℤ) : ℚ) / 32768 ∧
        -1 ≤ (chans.getD c []).getD i 0 ∧
        (chans.getD c []).getD i 0 ≤ 32767 / 32768) :=
  ⟨⟨by decide, by decide, by decide, by decide⟩,
    C8_decode_semantics [0, 128] 1 1 (by decide) (by decide) (by decide) (by decide)⟩

/-- C8 counterexample, refuting the claim as stated for all `n` and
channel counts: a 66-byte buffer with `channelCount = 33` (so `n = 1`) fails
with `NotSupportedError` instead of producing 33 channels, and the empty
buffer with one channel (`n = 0`) fails instead of producing one empty
channel. -/
theorem C8_decode_semantics_cex :
    (List.replicate 66 (0 : ℕ)).length = 2 * 1 * 33 ∧
    (∀ chans : List (List ℚ), decodeAudioData (List.replicate 66 (0 : ℕ)) 33 ≠ .ok chans) ∧
    List.length ([] : List ℕ) = 2 * 0 * 1 ∧
    (∀ chans : List (List ℚ), decodeAudioData ([] : List ℕ) 1 ≠ .ok chans) := by
  refine ⟨by decide, fun chans h => ?_, rfl, fun chans h => ?_⟩
  · have hred : decodeAudioData (List.replicate 66 (0 : ℕ)) 33 = .error .notSupported := rfl
    rw [hred] at h
    exact Except.noConfusion h
  · have hred : decodeAudioData ([] : List ℕ) 1 = .error .notSupported := rfl
    rw [hred] at h
    exact Except.noConfusion h

-- ### Claim C9 — encode overflow behaviour

/-- C9: `createPcmBlob` stores, for each input sample `x`, the value
`x * 32768` truncated toward zero and reduced modulo `2^16` into the signed
range `[-32768, 32767]` — the stored value always lies in that range and is
congruent modulo `2^16` to the truncation; a sample of exactly `1.0` encodes
to `-32768`, and the out-of-range sample `1.5` wraps to `-16384` rather than
clamping to `32767`. -/
theorem C9_encode_wraparound :
    (∀ x : ℚ, -32768 ≤ encodeSample x ∧ encodeSample x ≤ 32767) ∧
    (∀ x : ℚ, encodeSample x % 65536 = truncQ (x * 32768) % 65536) ∧
    encodeSample 1 = -32768 ∧
    encodeSample (3 / 2) = -16384 := by
  refine ⟨encodeSample_range, fun x => toInt16_emod _, encodeSample_one, ?_⟩
  rw [encodeSample,
    truncQ_eq_of_eq_intCast (by norm_num :
      (3 / 2 : ℚ) * 32768 = ((49152 : ℤ) : ℚ))]
  decide

-- ### Playback scheduler (LiveSession.tsx, onmessage audio branch)

/-- One enqueue step of the playback scheduler, from the inbound-audio branch
of `onmessage` (`LiveSession.tsx` lines 172 and 182-183):
`nextStartTime = max(nextStartTime, currentTime)`; the buffer is started at
`nextStartTime`; then `nextStartTime += buffer.duration`.  `schedRun` runs a
sequence of enqueues, each event carrying the device time observed at that
call and the decoded buffer's duration, and returns the `(startTime, duration)`
pair assigned to each buffer in order. -/
def schedRun (cursor : ℚ) : List (ℚ × ℚ) → List (ℚ × ℚ)
  | [] => []
  | e :: rest => (max cursor e.1, e.2) :: schedRun (max cursor e.1 + e.2) rest

/-- The value of the `nextStartTime` cursor before each enqueue and after the
final one. -/
def schedCursors (cursor : ℚ) : List (ℚ × ℚ) → List ℚ
  | [] => [cursor]
  | e :: rest => cursor :: schedCursors (max cursor e.1 + e.2) rest

theorem schedRun_head_start (cursor : ℚ) (evs : List (ℚ × ℚ)) :
    ∀ p ∈ (schedRun cursor evs).head?, cursor ≤ p.1 := by
  cases evs with
  | nil => simp [schedRun]
  | cons e rest =>
    intro p hp
    simp only [schedRun, List.head?_cons, Option.mem_def, Option.some.injEq] at hp
    rw [← hp]
    exact le_max_left _ _

theorem schedCursors_head (cursor : ℚ) (evs : List (ℚ × ℚ)) :
    (schedCursors cursor evs).head? = some cursor := by
  cases evs <;> simp [schedCursors]

/-- No overlap: every scheduled start is at least the previous start plus the
previous duration. -/
theorem schedRun_gap (cursor : ℚ) :
    ∀ evs : List (ℚ × ℚ),
      List.Chain' (fun a b => a.1 + a.2 ≤ b.1) (schedRun cursor evs)
  | [] => List.chain'_nil
  | e :: rest => by
    rw [schedRun, List.chain'_cons']
    exact ⟨schedRun_head_start _ rest, schedRun_gap _ rest⟩

/-- With nonnegative durations, start times are non-decreasing. -/
theorem schedRun_mono (cursor : ℚ) (evs : List (ℚ × ℚ))
    (hdur : ∀ e ∈ evs, 0 ≤ e.2) :
    List.Chain' (fun a b => a.1 ≤ b.1) (schedRun cursor evs) := by
  induction evs generalizing cursor with
  | nil => exact List.chain'_nil
  | cons e rest ih =>
    rw [schedRun, List.chain'_cons']
    refine ⟨fun p hp => ?_, ih _ fun x hx => hdur x (List.mem_cons_of_mem e hx)⟩
    have h1 := schedRun_head_start (max cursor e.1 + e.2) rest p hp
    have h2 : (0 : ℚ) ≤ e.2 := hdur e (List.mem_cons_self e rest)
    linarith

/-- With nonnegative durations, the cursor never decreases. -/
theorem schedCursors_mono (cursor : ℚ) (evs : List (ℚ × ℚ))
    (hdur : ∀ e ∈ evs, 0 ≤ e.2) :
    List.Chain' (· ≤ ·) (schedCursors cursor evs) := by
  induction evs generalizing cursor with
  | nil => simp [schedCursors]
  | cons e rest ih =>
    rw [schedCursors, List.chain'_cons']
    refine ⟨fun c hc => ?_, ih _ fun x hx => hdur x (List.mem_cons_of_mem e hx)⟩
    rw [schedCursors_head] at hc
    simp only [Option.mem_def, Option.some.injEq] at hc
    have h2 : (0 : ℚ) ≤ e.2 := hdur e (List.mem_cons_self e rest)
    have h3 : cursor ≤ max cursor e.1 := le_max_left _ _
    rw [← hc]
    linarith

-- ### Claim C2 — playback scheduler ordering

/-- C2: for every initial cursor and sequence of enqueue operations (each
carrying the device time observed at the call and the buffer's duration), with
device times non-decreasing across calls and durations nonnegative, the
assigned start times are non-decreasing in enqueue order, each start time is
at least the previous start plus the previous duration (no overlap), and the
cursor is monotonically non-decreasing. -/
theorem C2_scheduler_ordering (cursor : ℚ) (evs : List (ℚ × ℚ))
    (hdur : ∀ e ∈ evs, 0 ≤ e.2)
    (_hnow : List.Chain' (· ≤ ·) (evs.map Prod.fst)) :
    List.Chain' (fun a b => a.1 ≤ b.1) (schedRun cursor evs) ∧
    List.Chain' (fun a b => a.1 + a.2 ≤ b.1) (schedRun cursor evs) ∧
    List.Chain' (· ≤ ·) (schedCursors cursor evs) :=
  ⟨schedRun_mono cursor evs hdur, schedRun_gap cursor evs,
    schedCursors_mono cursor evs hdur⟩

/-- Witness for C2: two buffers of duration 1 arriving at device times 0 and
2 from initial cursor 0. -/
theorem C2_scheduler_ordering_witness :
    ((∀ e ∈ [((0 : ℚ), (1 : ℚ)), ((2 : ℚ), (1 : ℚ))], 0 ≤ e.2) ∧
      List.Chain' (· ≤ ·) ([((0 : ℚ), (1 : ℚ)), ((2 : ℚ), (1 : ℚ))].map Prod.fst)) ∧
    List.Chain' (fun a b => a.1 ≤ b.1)
      (schedRun 0 [((0 : ℚ), (1 : ℚ)), ((2 : ℚ), (1 : ℚ))]) ∧
    List.Chain' (fun a b => a.1 + a.2 ≤ b.1)
      (schedRun 0 [((0 : ℚ), (1 : ℚ)), ((2 : ℚ), (1 : ℚ))]) ∧
    List.Chain' (· ≤ ·) (schedCursors 0 [((0 : ℚ), (1 : ℚ)), ((2 : ℚ), (1 : ℚ))]) :=
  ⟨⟨by decide, by simp⟩,
    C2_scheduler_ordering 0 [((0 : ℚ), (1 : ℚ)), ((2 : ℚ), (1 : ℚ))] (by decide) (by simp)⟩

-- ### Inbound audio handling and the closed-context guard

/-- Lifecycle states of a Web Audio `AudioContext` (`ctx.state`). -/
inductive CtxState
  | running
  | suspended
  | closed
deriving DecidableEq

/-- The playback-side state owned by the session: the `nextStartTimeRef`
cursor, the `sourcesRef` set of active buffer-source handles, and the
`outputAudioContextRef` (absent before a session is started). -/
structure PlayState where
  cursor : ℚ
  sources : List ℕ
  ctx : Option CtxState
deriving DecidableEq

/-- The inbound-audio branch of `onmessage` (`LiveSession.tsx` lines 167-185):
if the output context ref is set and its state is not `'closed'`, the cursor is
bumped to `max(cursor, currentTime)` (line 172), the base64 payload is decoded
(line 173; mono, and a decode failure rejects the async handler, modelled by
propagating the error), the buffer source is started at the bumped cursor and
registered, and the cursor advances by the buffer's duration
(`frameCount / 24000` seconds at the fixed 24000 Hz output rate).  If the ref
is unset or the context is closed, the whole branch is skipped.  The handler
also flips an "AI is speaking" indicator before this guard; that UI flag is
not part of the playback state.  Returns the new state and the start time
assigned to the scheduled buffer, if one was scheduled. -/
def handleAudioMessage (s : PlayState) (now : ℚ) (payload : List ℕ) (handle : ℕ) :
    Except DecodeError (PlayState × Option ℚ) :=
  match s.ctx with
  | none => .ok (s, none)
  | some c =>
    if c = CtxState.closed then .ok (s, none)
    else
      let start := max s.cursor now
      match decodeAudioData payload 1 with
      | .error e => .error e
      | .ok chans =>
        let dur : ℚ := ((chans.getD 0 []).length : ℚ) / 24000
        .ok ({ s with cursor := start + dur, sources := s.sources ++ [handle] },
          some start)

-- ### Claim C7 — enqueue after close is a no-op

/-- C7: an inbound audio message that arrives after the playback audio context
has been closed performs no action and raises no error: the cursor, the
active-handle set and the scheduled playback are all left unchanged (the state
is returned as is and nothing is scheduled), whatever the payload. -/
theorem C7_enqueue_after_close (s : PlayState) (now : ℚ) (payload : List ℕ)
    (handle : ℕ) (hclosed : s.ctx = some CtxState.closed) :
    handleAudioMessage s now payload handle = .ok (s, none) := by
  rw [handleAudioMessage, hclosed]
  simp

/-- Witness for C7 at a concrete closed-context state. -/
theorem C7_enqueue_after_close_witness :
    (PlayState.mk 5 [3] (some CtxState.closed)).ctx = some CtxState.closed ∧
    handleAudioMessage (PlayState.mk 5 [3] (some CtxState.closed)) 7 [1] 4
      = .ok (PlayState.mk 5 [3] (some CtxState.closed), none) :=
  ⟨rfl, C7_enqueue_after_close (PlayState.mk 5 [3] (some CtxState.closed)) 7 [1] 4 rfl⟩

-- ### Transcript accumulation (LiveSession.tsx, onmessage transcript branch)

/-- Speaker role of a transcript entry. -/
inductive Role
  | user
  | model
deriving DecidableEq

/-- `ChatMessage` as used by the transcript state: role, accumulated text and
creation timestamp (`Date.now()`), `src/types.ts`. -/
structure ChatMessage where
  role : Role
  text : String
  timestamp : ℕ
deriving DecidableEq

/-- One incremental-transcription update (`LiveSession.tsx` lines 196-213):
`const last = prev[prev.length - 1]; if (last && last.role === r)` replace the
last entry by one with the chunk appended to its text (`prev.slice(0, -1)`
plus `{ ...last, text: last.text + chunk }`), `else` append a fresh entry
`{ role: r, text: chunk, timestamp: Date.now() }`.  The handler runs this only
for a non-empty chunk (`if (inputTx)` / `if (outputTx)`); `ts` is the
`Date.now()` value observed if a fresh entry is created. -/
def applyTranscription (prev : List ChatMessage) (r : Role) (chunk : String)
    (ts : ℕ) : List ChatMessage :=
  match prev.getLast? with
  | some last =>
    if last.role = r then
      prev.dropLast ++ [{ last with text := last.text ++ chunk }]
    else
      prev ++ [⟨r, chunk, ts⟩]
  | none => prev ++ [⟨r, chunk, ts⟩]

/-- The transcript invariant: no two consecutive entries share a role. -/
def noConsecSameRole (l : List ChatMessage) : Prop :=
  List.Chain' (fun a b => a.role ≠ b.role) l

/-- The matching-role branch: the chunk is appended to the tail entry. -/
theorem applyTranscription_extend (prev : List ChatMessage) (r : Role)
    (chunk : String) (ts : ℕ) (last : ChatMessage)
    (hl : prev.getLast? = some last) (hr : last.role = r) :
    applyTranscription prev r chunk ts
      = prev.dropLast ++ [{ last with text := last.text ++ chunk }] := by
  unfold applyTranscription
  rw [hl]
  simp [hr]

/-- The differing-role branch: a fresh entry is appended. -/
theorem applyTranscription_fresh (prev : List ChatMessage) (r : Role)
    (chunk : String) (ts : ℕ) (last : ChatMessage)
    (hl : prev.getLast? = some last) (hr : ¬ last.role = r) :
    applyTranscription prev r chunk ts = prev ++ [⟨r, chunk, ts⟩] := by
  unfold applyTranscription
  rw [hl]
  simp [hr]

/-- The empty-transcript branch: a fresh entry is appended. -/
theorem applyTranscription_empty (r : Role) (chunk : String) (ts : ℕ) :
    applyTranscription [] r chunk ts = [⟨r, chunk, ts⟩] := rfl

theorem applyTranscription_preserves (prev : List ChatMessage) (r : Role)
    (chunk : String) (ts : ℕ) (h : noConsecSameRole prev) :
    noConsecSameRole (applyTranscription prev r chunk ts) := by
  cases hl : prev.getLast? with
  | none =>
    rw [List.getLast?_eq_none_iff.mp hl, applyTranscription_empty]
    simp [noConsecSameRole]
  | some last =>
    have hne : prev ≠ [] := by
      intro hnil
      rw [hnil] at hl
      exact Option.noConfusion hl
    have hsplit : prev = prev.dropLast ++ [last] := by
      have h1 := List.dropLast_append_getLast hne
      rw [List.getLast?_eq_getLast prev hne, Option.some_inj] at hl
      rw [hl] at h1
      exact h1.symm
    by_cases hr : last.role = r
    · rw [applyTranscription_extend prev r chunk ts last hl hr]
      rw [hsplit] at h
      rw [noConsecSameRole, List.chain'_append] at h ⊢
      refine ⟨h.1, List.chain'_singleton _, fun x hx y hy => ?_⟩
      have h3 := h.2.2 x hx last (by simp)
      simp only [List.head?_cons, Option.mem_def, Option.some.injEq] at hy
      rw [← hy]
      simpa using h3
    · rw [applyTranscription_fresh prev r chunk ts last hl hr]
      rw [noConsecSameRole, List.chain'_append]
      refine ⟨h, List.chain'_singleton _, fun x hx y hy => ?_⟩
      rw [Option.mem_def, hl, Option.some.injEq] at hx
      simp only [List.head?_cons, Option.mem_def, Option.some.injEq] at hy
      rw [← hy, ← hx]
      simpa using hr

-- ### Claim C3 — transcript merge

/-- C3: appending an incremental-transcription chunk for role `r` extends the
text of the tail entry when the tail exists and has role `r`, and otherwise
appends a new entry with role `r`; consequently the transcript never contains
two consecutive entries of the same role, and the event sequence
`user:"Hel"`, `user:"lo "`, `model:"Hi"` applied to the empty transcript
yields exactly `{user, "Hello "}` then `{model, "Hi"}` (whatever the observed
timestamps). -/
theorem C3_transcript_merge (t1 t2 t3 : ℕ) :
    (∀ (prev : List ChatMessage) (r : Role) (chunk : String) (ts : ℕ),
      noConsecSameRole prev → noConsecSameRole (applyTranscription prev r chunk ts)) ∧
    (∀ (prev : List ChatMessage) (r : Role) (chunk : String) (ts : ℕ)
      (last : ChatMessage), prev.getLast? = some last → last.role = r →
      applyTranscription prev r chunk ts
        = prev.dropLast ++ [{ last with text := last.text ++ chunk }]) ∧
    (∀ (prev : List ChatMessage) (r : Role) (chunk : String) (ts : ℕ)
      (last : ChatMessage), prev.getLast? = some last → last.role ≠ r →
      applyTranscription prev r chunk ts = prev ++ [⟨r, chunk, ts⟩]) ∧
    applyTranscription (applyTranscription (applyTranscription []
        Role.user "Hel" t1) Role.user "lo " t2) Role.model "Hi" t3
      = [⟨Role.user, "Hello ", t1⟩, ⟨Role.model, "Hi", t3⟩] :=
  ⟨applyTranscription_preserves, applyTranscription_extend,
    applyTranscription_fresh, rfl⟩

/-- Witness for C3 at concrete timestamps and a concrete invariant instance. -/
theorem C3_transcript_merge_witness :
    noConsecSameRole (applyTranscription [] Role.user "x" 0) ∧
    applyTranscription (applyTranscription (applyTranscription []
        Role.user "Hel" 0) Role.user "lo " 1) Role.model "Hi" 2
      = [⟨Role.user, "Hello ", 0⟩, ⟨Role.model, "Hi", 2⟩] :=
  ⟨(C3_transcript_merge 0 1 2).1 [] Role.user "x" 0 (by simp [noConsecSameRole]),
    (C3_transcript_merge 0 1 2).2.2.2⟩

-- ### Claim C10 — transcript append frame condition

/-- C10: appending a chunk to an existing tail entry of matching role changes
only that entry's text — its role and timestamp are unchanged, every entry
before the tail is unchanged, and the transcript's length is unchanged; a new
entry carrying the fresh timestamp is appended exactly when the tail's role
differs or the transcript is empty. -/
theorem C10_transcript_frame (prev : List ChatMessage) (r : Role)
    (chunk : String) (ts : ℕ) :
    (∀ last, prev.getLast? = some last → last.role = r →
      (applyTranscription prev r chunk ts).length = prev.length ∧
      (applyTranscription prev r chunk ts).dropLast = prev.dropLast ∧
      (applyTranscription prev r chunk ts).getLast?
        = some ⟨last.role, last.text ++ chunk, last.timestamp⟩) ∧
    (∀ last, prev.getLast? = some last → last.role ≠ r →
      applyTranscription prev r chunk ts = prev ++ [⟨r, chunk, ts⟩]) ∧
    (prev = [] → applyTranscription prev r chunk ts = [⟨r, chunk, ts⟩]) := by
  refine ⟨fun last hl hr => ?_, fun last hl hr =>
    applyTranscription_fresh prev r chunk ts last hl hr, fun hnil => ?_⟩
  · have hne : prev ≠ [] := by
      intro hnil
      rw [hnil] at hl
      exact Option.noConfusion hl
    have hpos : 1 ≤ prev.length := List.length_pos.mpr hne
    rw [applyTranscription_extend prev r chunk ts last hl hr]
    refine ⟨?_, List.dropLast_concat, ?_⟩
    · simp only [List.length_append, List.length_dropLast, List.length_cons,
        List.length_nil]
      omega
    · rw [List.getLast?_concat]
  · rw [hnil, applyTranscription_empty]

/-- Witness for C10 at a concrete one-entry transcript with matching role. -/
theorem C10_transcript_frame_witness :
    (applyTranscription [⟨Role.user, "a", 5⟩] Role.user "b" 9).length = 1 ∧
    (applyTranscription [⟨Role.user, "a", 5⟩] Role.user "b" 9).dropLast = [] ∧
    (applyTranscription [⟨Role.user, "a", 5⟩] Role.user "b" 9).getLast?
      = some ⟨Role.user, "ab", 5⟩ ∧
    applyTranscription [⟨Role.user, "a", 5⟩] Role.model "c" 9
      = [⟨Role.user, "a", 5⟩, ⟨Role.model, "c", 9⟩] := by
  have h := (C10_transcript_frame [⟨Role.user, "a", 5⟩] Role.user "b" 9).1
    ⟨Role.user, "a", 5⟩ rfl rfl
  have h2 := (C10_transcript_frame [⟨Role.user, "a", 5⟩] Role.model "c" 9).2.1
    ⟨Role.user, "a", 5⟩ rfl (by decide)
  exact ⟨h.1, h.2.1, h.2.2, h2⟩

-- ### Capture pipeline (LiveSession.tsx, scriptProcessor.onaudioprocess)

/-- The per-frame capture handler (`LiveSession.tsx` lines 145-158):
`if (isMuted || !mountedRef.current) return;` then
`createPcmBlob(inputData)` and a fire-and-forget
`session.sendRealtimeInput({ media: pcmBlob })`.

Crucially, `isMuted` here is a `useState` value: a per-render constant.  The
handler is assigned once, inside the `onopen` callback created by
`startSession`, so the closure permanently captures the value `isMuted` had in
the render in which `startSession` ran — later `setIsMuted` calls produce new
render scopes that this installed handler never reads.  `capturedMuted` is
that captured value.  By contrast `mountedRef` is a mutable ref, read at call
time, modelled by `mountedNow`.  The result is the byte content of the blob
handed to the transport sink, or `none` when the frame is discarded. -/
def onAudioFrame (capturedMuted : Bool) (mountedNow : Bool) (frame : List ℚ) :
    Option (List ℕ) :=
  if capturedMuted || !mountedNow then none
  else some (createPcmBlobBytes frame)

-- ### Claim C5 — muting (code bug: stale closure)

/-- C5 (behaviour of the code at the claim's failing scenario): in a session
started with the mute flag clear — the only way a session streams at all —
every subsequent captured frame is encoded and forwarded regardless of any
later change to the `isMuted` state, because the installed handler's guard
reads the stale captured value, never the current flag: the current mute flag
is not even an input of the handler.  Conversely a handler that had captured
`muted = true` would drop every frame.  The claim says the flag is consulted
on each frame so that muting takes effect on the very next frame; the code
does not do that. -/
theorem C5_mute_stale_closure :
    (∀ frame : List ℚ, onAudioFrame false true frame
      = some (createPcmBlobBytes frame)) ∧
    (∀ frame : List ℚ, onAudioFrame true true frame = none) :=
  ⟨fun _ => rfl, fun _ => rfl⟩

-- ### Session teardown (LiveSession.tsx, cleanupSession)

/-- Errors the raw resource operations can raise during teardown. -/
inductive JsError
  /-- `AudioContext.close()` on an already-closed context fails with
  `InvalidStateError`. -/
  | invalidState
deriving DecidableEq

/-- The session resources touched by `cleanupSession` (`LiveSession.tsx`
lines 49-70): the media stream (if any) with its tracks, the remote session
handle, the two audio contexts, and the active buffer sources.  `sources`
carries one flag per active source recording whether its `stop()` would throw
(e.g. because it already ended); those calls are individually wrapped in
`try/catch` by the code. -/
structure SessionRes where
  hasStream : Bool
  tracksStopped : Bool
  sessionOpen : Bool
  inputCtx : Option CtxState
  outputCtx : Option CtxState
  sources : List Bool
deriving DecidableEq

/-- Raw `AudioContext.close()`: fails on an already-closed context. -/
def ctxCloseRaw : CtxState → Except JsError CtxState
  | CtxState.closed => .error JsError.invalidState
  | _ => .ok CtxState.closed

/-- The guarded close used by `cleanupSession`:
`if (ref.current && ref.current.state !== 'closed') ref.current.close()`. -/
def closeCtxGuarded : Option CtxState → Except JsError (Option CtxState)
  | some c => if c = CtxState.closed then .ok (some c) else (ctxCloseRaw c).map some
  | none => .ok none

theorem closeCtxGuarded_eq (c : Option CtxState) :
    closeCtxGuarded c = .ok (c.map fun _ => CtxState.closed) := by
  cases c with
  | none => rfl
  | some ctx => cases ctx <;> rfl

/-- `cleanupSession` (`LiveSession.tsx` lines 49-70), step by step:
1. if a media stream is present, `track.stop()` on every track
   (`MediaStreamTrack.stop` is specified to be a no-op on an ended track, so
   this step never throws);
2. if the session ref is set, `session.close()` inside `try { } catch`
   (a close failure is logged and swallowed) and the ref is cleared;
3. and 4. each audio context is closed under the not-already-closed guard;
5. every active source's `stop()` is called inside `try { } catch` and the
   active set is cleared.
An uncaught error anywhere would propagate as `.error`. -/
def cleanupSession (s : SessionRes) : Except JsError SessionRes := do
  let s1 := if s.hasStream then { s with tracksStopped := true } else s
  let s2 := if s1.sessionOpen then { s1 with sessionOpen := false } else s1
  let ic ← closeCtxGuarded s2.inputCtx
  let s3 := { s2 with inputCtx := ic }
  let oc ← closeCtxGuarded s3.outputCtx
  let s4 := { s3 with outputCtx := oc }
  .ok { s4 with sources := [] }

-- ### Claim C6 — teardown idempotence

/-- `Except` bind on a success just continues. -/
theorem exceptBind_ok {e a b : Type} (x : a) (f : a → Except e b) :
    (do let y ← (Except.ok x : Except e a); f y) = f x := rfl

/-- C6: from any state, `cleanupSession` completes without an uncaught error,
leaves the active-playback set empty, closes the session and any audio
contexts, and stops the stream's tracks; running it a second time immediately
afterwards is again error-free, changes nothing, and again leaves the
active-playback set empty. -/
theorem C6_teardown_idempotent (s : SessionRes) :
    ∃ t : SessionRes, cleanupSession s = .ok t ∧ t.sources = [] ∧
      cleanupSession t = .ok t ∧
      t.sessionOpen = false ∧
      t.tracksStopped = (s.hasStream || s.tracksStopped) ∧
      t.inputCtx = s.inputCtx.map (fun _ => CtxState.closed) ∧
      t.outputCtx = s.outputCtx.map (fun _ => CtxState.closed) := by
  obtain ⟨hs, tr, so, ic, oc, src⟩ := s
  refine ⟨⟨hs, hs || tr, false, ic.map fun _ => CtxState.closed,
    oc.map fun _ => CtxState.closed, []⟩, ?_, rfl, ?_, rfl, rfl, rfl, rfl⟩
  · cases hs <;> cases so <;>
      simp [cleanupSession, closeCtxGuarded_eq, exceptBind_ok]
  · cases hs <;> cases ic <;> cases oc <;>
      simp [cleanupSession, closeCtxGuarded_eq, exceptBind_ok]

/-- Witness for C6 at a concrete live session state. -/
theorem C6_teardown_idempotent_witness :
    ∃ t : SessionRes,
      cleanupSession ⟨true, false, true, some CtxState.running,
        some CtxState.suspended, [true, false]⟩ = .ok t ∧
      t.sources = [] ∧ cleanupSession t = .ok t ∧ t.sessionOpen = false ∧
      t.tracksStopped = (true || false) ∧
      t.inputCtx = (some CtxState.running).map (fun _ => CtxState.closed) ∧
      t.outputCtx = (some CtxState.suspended).map (fun _ => CtxState.closed) :=
  C6_teardown_idempotent ⟨true, false, true, some CtxState.running,
    some CtxState.suspended, [true, false]⟩
